import Mathlib

/-!
Shallow embedding of the request-framing core of the `server` package:
the CRLF line reader (`ReadLine` in `util.go`), the request parser
(`ReadRequest`, `parseRequestLine`, `validMethod`) and the response
status-line writer (`Response.Write`, `HandleOK`, `HandleBadRequest`,
`statusText`).

The byte stream is modelled as a `List Char`; the only stream error in
scope is clean end-of-stream (a `bufio.Reader` over a finite input), so
a reading primitive reports success by a `Bool` flag (`false` = the
stream ended before the delimiter, i.e. the `io.EOF` path).  Each
reading function also returns the remaining stream, modelling the
advancing cursor of the shared `bufio.Reader`.
-/

/-- Model of `br.ReadString('\n')` on a `bufio.Reader` over a finite
stream: returns the bytes read up to and including the first `'\n'`
(the whole rest of the stream when there is none), the remaining
stream, and whether the delimiter was found (`false` models the
`io.EOF` error return). -/
def readStringLF : List Char → List Char × List Char × Bool
  | [] => ([], [], false)
  | c :: cs =>
    if c = '\n' then ([c], cs, true)
    else
      match readStringLF cs with
      | (chunk, rest, found) => (c :: chunk, rest, found)

/-- Model of `strings.HasSuffix(line, "\r\n")`. -/
def hasSuffixCRLF (l : List Char) : Bool :=
  decide (2 ≤ l.length) && decide (l.drop (l.length - 2) = ['\r', '\n'])

/-- The loop body of `ReadLine` in `src/server/util.go`, with an explicit
fuel argument making the loop a total function: each iteration calls
`readStringLF`, appends the chunk to the accumulated `line`, returns the
accumulation with the error when the chunk was not `'\n'`-terminated,
returns the line with its trailing `"\r\n"` stripped (`line[:len(line)-2]`)
when the accumulation ends in `"\r\n"`, and loops otherwise.  Since every
iteration that loops consumes at least one character of the stream, fuel
`s.length + 1` is never exhausted. -/
def ReadLineAux : Nat → List Char → List Char → List Char × Bool × List Char
  | 0, acc, s => (acc, false, s)
  | fuel + 1, acc, s =>
    match readStringLF s with
    | (chunk, rest, found) =>
      let line := acc ++ chunk
      if found = false then (line, false, rest)
      else if hasSuffixCRLF line then (line.take (line.length - 2), true, rest)
      else ReadLineAux fuel line rest

/-- Model of `ReadLine` (`src/server/util.go`): reads a single line ending
with `"\r\n"`, stripping the terminator; on a stream error the data read
so far is returned together with the error flag. -/
def ReadLine (s : List Char) : List Char × Bool × List Char :=
  ReadLineAux (s.length + 1) [] s

/-- Number of `'\n'` characters in a list (used only to bound the number
of `ReadLine` loop iterations). -/
def nlCount : List Char → Nat
  | [] => 0
  | c :: cs => (if c = '\n' then 1 else 0) + nlCount cs

/-- Whether the two-character sequence `"\r\n"` occurs (adjacently)
anywhere in the list. -/
def hasCRLF : List Char → Bool
  | [] => false
  | [_] => false
  | a :: b :: rest => (decide (a = '\r') && decide (b = '\n')) || hasCRLF (b :: rest)

/-- The `Request` struct: only the `Method` field exists in the source. -/
structure Request where
  Method : List Char
deriving DecidableEq

/-- The error values `ReadRequest` can return: the propagated stream
error (`io.EOF` from `ReadLine`), `badStringError("malformed start line", line)`
carrying the raw line, and `badStringError("invalid method", method)`
carrying the offending token. -/
inductive ParseError where
  | eof : ParseError
  | malformedStartLine : List Char → ParseError
  | invalidMethod : List Char → ParseError
deriving DecidableEq

/-- Model of `strings.SplitN(line, " ", 2)`: one element (the whole
line) when no space occurs, otherwise the part before the first space
followed by everything after it. -/
def splitN2Space : List Char → List (List Char)
  | [] => [[]]
  | c :: cs =>
    if c = ' ' then [[], cs]
    else
      match splitN2Space cs with
      | [] => [[c]]
      | x :: xs => (c :: x) :: xs

/-- Model of `parseRequestLine` (`src/unnamed/part_000`): split on the
first space into at most two fields, fail unless exactly two fields
result, and return the first field (the method token). -/
def parseRequestLine (line : List Char) : Option (List Char) :=
  let fields := splitN2Space line
  if fields.length ≠ 2 then none else some (fields.headD [])

/-- Model of `validMethod`: only the literal `"GET"` is accepted. -/
def validMethod (method : List Char) : Bool :=
  decide (method = ['G', 'E', 'T'])

/-- The header-skipping loop of `ReadRequest`, with fuel: read a line,
propagate a read error, stop at the first empty line, otherwise discard
the line and continue.  Returns the error (if any) and the remaining
stream.  Each iteration consumes at least the two terminator bytes, so
fuel `s.length + 1` is never exhausted. -/
def readHeaderLoopAux : Nat → List Char → Option ParseError × List Char
  | 0, s => (some ParseError.eof, s)
  | fuel + 1, s =>
    match ReadLine s with
    | (line, ok, rest) =>
      if ok = false then (some ParseError.eof, rest)
      else if line = [] then (none, rest)
      else readHeaderLoopAux fuel rest

/-- Model of `ReadRequest` (`src/unnamed/part_000`): read the start
line (propagating a read error with a nil request), parse it into the
method token (failing with a malformed-start-line error carrying the
raw line), validate the method (failing with an invalid-method error
carrying the token), then skip header lines until the empty line.  The
returned triple is (request or nil, error or nil, remaining stream). -/
def ReadRequest (s : List Char) : Option Request × Option ParseError × List Char :=
  match ReadLine s with
  | (line, ok, rest) =>
    if ok = false then (none, some ParseError.eof, rest)
    else
      match parseRequestLine line with
      | none => (none, some (ParseError.malformedStartLine line), rest)
      | some method =>
        if validMethod method = false then
          (none, some (ParseError.invalidMethod method), rest)
        else
          match readHeaderLoopAux (rest.length + 1) rest with
          | (some e, rest2) => (none, some e, rest2)
          | (none, rest2) => (some { Method := method }, none, rest2)

/-- The wire encoding of a list of lines, each terminated by CRLF. -/
def encodeLines : List (List Char) → List Char
  | [] => []
  | h :: t => h ++ '\r' :: '\n' :: encodeLines t

/-- The `Response` struct: status code, protocol string and the
computed file path (never read by `Write`). -/
structure Response where
  StatusCode : Int
  Proto : List Char
  FilePath : List Char
deriving DecidableEq

/-- The constant `responseProto = "HTTP/1.1"`. -/
def responseProto : List Char := "HTTP/1.1".data

/-- The constant `statusOK = 200`. -/
def statusOK : Int := 200

/-- The constant `statusMethodNotAllowed = 405`. -/
def statusMethodNotAllowed : Int := 405

/-- Model of the `statusText` map: a lookup with the Go zero value `""`
for any key other than the two entries of the map literal. -/
def statusText (code : Int) : List Char :=
  if code = statusOK then "OK".data
  else if code = statusMethodNotAllowed then "Method Not Allowed".data
  else []

/-- Decimal rendering of a Go `int` as produced by `fmt.Sprintf("%v", i)`. -/
def intToChars (i : Int) : List Char :=
  if i < 0 then '-' :: Nat.toDigits 10 i.natAbs else Nat.toDigits 10 i.toNat

/-- Model of `(*Response).init`: sets `Proto` to `responseProto`. -/
def Response.init (res : Response) : Response :=
  { res with Proto := responseProto }

/-- Model of `(*Response).HandleOK`: `init` then `StatusCode = statusOK`. -/
def Response.HandleOK (res : Response) : Response :=
  { res.init with StatusCode := statusOK }

/-- Model of `(*Response).HandleBadRequest`: `init`, then
`StatusCode = statusMethodNotAllowed` and `FilePath = ""`. -/
def Response.HandleBadRequest (res : Response) : Response :=
  { res.init with StatusCode := statusMethodNotAllowed, FilePath := [] }

/-- Model of `(*Response).Write`: the bytes written to the connection,
namely `fmt.Sprintf("%v %v %v\r\n", res.Proto, res.StatusCode,
statusText[res.StatusCode])` and nothing else. -/
def Response.Write (res : Response) : List Char :=
  res.Proto ++ ' ' :: (intToChars res.StatusCode
    ++ ' ' :: (statusText res.StatusCode ++ ['\r', '\n']))

theorem nlCount_append (x y : List Char) :
    nlCount (x ++ y) = nlCount x + nlCount y := by
  induction x with
  | nil => simp [nlCount]
  | cons c cs ih => simp [nlCount, ih]; omega

theorem nlCount_eq_zero {x : List Char} (h : '\n' ∉ x) : nlCount x = 0 := by
  induction x with
  | nil => rfl
  | cons c cs ih =>
    have hc : ¬ c = '\n' := fun hc => h (hc ▸ List.mem_cons_self c cs)
    have hcs : '\n' ∉ cs := fun hm => h (List.mem_cons_of_mem c hm)
    simp [nlCount, hc, ih hcs]

theorem nlCount_le_length (x : List Char) : nlCount x ≤ x.length := by
  induction x with
  | nil => simp [nlCount]
  | cons c cs ih =>
    simp only [nlCount, List.length_cons]
    split <;> omega

theorem readStringLF_recompose (s : List Char) :
    (readStringLF s).1 ++ (readStringLF s).2.1 = s := by
  induction s with
  | nil => rfl
  | cons c cs ih =>
    by_cases hc : c = '\n'
    · simp [readStringLF, hc]
    · simp only [readStringLF, hc, if_false]
      rcases hr : readStringLF cs with ⟨chunk, rest, found⟩
      rw [hr] at ih
      simpa using ih

theorem readStringLF_noLF {s : List Char} (h : '\n' ∉ s) :
    readStringLF s = (s, [], false) := by
  induction s with
  | nil => rfl
  | cons c cs ih =>
    have hc : ¬ c = '\n' := fun hc => h (hc ▸ List.mem_cons_self c cs)
    have hcs : '\n' ∉ cs := fun hm => h (List.mem_cons_of_mem c hm)
    simp [readStringLF, hc, ih hcs]

theorem readStringLF_append {a : List Char} (r : List Char) (h : '\n' ∉ a) :
    readStringLF (a ++ '\n' :: r) = (a ++ ['\n'], r, true) := by
  induction a with
  | nil => simp [readStringLF]
  | cons c cs ih =>
    have hc : ¬ c = '\n' := fun hc => h (hc ▸ List.mem_cons_self c cs)
    have hcs : '\n' ∉ cs := fun hm => h (List.mem_cons_of_mem c hm)
    simp [readStringLF, hc, ih hcs]

theorem lf_split {p : List Char} (hp : '\n' ∈ p) :
    ∃ a b, p = a ++ '\n' :: b ∧ '\n' ∉ a := by
  induction p with
  | nil => cases hp
  | cons c cs ih =>
    by_cases hc : c = '\n'
    · exact ⟨[], cs, by rw [hc]; rfl, by simp⟩
    · have hm : '\n' ∈ cs := by
        rcases List.mem_cons.mp hp with h | h
        · exact absurd h.symm hc
        · exact h
      obtain ⟨a, b, hab, hna⟩ := ih hm
      refine ⟨c :: a, b, by rw [hab]; rfl, ?_⟩
      intro hmem
      rcases List.mem_cons.mp hmem with h | h
      · exact hc h.symm
      · exact hna h

theorem hasCRLF_append_right (x : List Char) {t : List Char}
    (h : hasCRLF t = true) : hasCRLF (x ++ t) = true := by
  induction x with
  | nil => simpa using h
  | cons c cs ih =>
    rcases he : cs ++ t with _ | ⟨d, u⟩
    · rcases List.append_eq_nil.mp he with ⟨_, ht⟩
      rw [ht] at h
      cases h
    · have : hasCRLF (d :: u) = true := he ▸ ih
      simp [List.cons_append, he, hasCRLF, this]

theorem hasCRLF_crlf (x y : List Char) :
    hasCRLF (x ++ '\r' :: '\n' :: y) = true :=
  hasCRLF_append_right x (by simp [hasCRLF])

theorem hasCRLF_false_right {x t : List Char}
    (h : hasCRLF (x ++ t) = false) : hasCRLF t = false := by
  by_cases ht : hasCRLF t
  · rw [hasCRLF_append_right x ht] at h
    cases h
  · simpa using ht

theorem hasSuffixCRLF_pair (z : List Char) (c d : Char) :
    hasSuffixCRLF (z ++ [c, d]) = (decide (c = '\r') && decide (d = '\n')) := by
  have hlen : (z ++ [c, d]).length - 2 = z.length := by simp
  have hdrop : (z ++ [c, d]).drop z.length = [c, d] := List.drop_left z [c, d]
  rw [hasSuffixCRLF, hlen, hdrop]
  by_cases hc : c = '\r' <;> by_cases hd : d = '\n' <;> simp [hc, hd]

theorem hasSuffixCRLF_snoc_lf (l : List Char) :
    hasSuffixCRLF (l ++ ['\n']) = decide (l.getLast? = some '\r') := by
  rcases List.eq_nil_or_concat l with h | ⟨z, w, h⟩
  · subst h
    simp [hasSuffixCRLF]
  · rw [List.concat_eq_append] at h
    subst h
    have h1 : (z ++ [w]) ++ ['\n'] = z ++ [w, '\n'] := by simp
    rw [h1, hasSuffixCRLF_pair, List.getLast?_concat]
    by_cases hw : w = '\r' <;> simp [hw]

theorem hasSuffixCRLF_strip {l : List Char} (h : hasSuffixCRLF l = true) :
    l = l.take (l.length - 2) ++ ['\r', '\n'] := by
  rw [hasSuffixCRLF, Bool.and_eq_true, decide_eq_true_eq, decide_eq_true_eq] at h
  conv_lhs => rw [← List.take_append_drop (l.length - 2) l]
  rw [h.2]

theorem take_pair_left (z : List Char) (c d : Char) :
    (z ++ [c, d]).take ((z ++ [c, d]).length - 2) = z := by
  have hlen : (z ++ [c, d]).length - 2 = z.length := by simp
  rw [hlen]
  exact List.take_left z [c, d]

theorem getLast?_append_cases (acc a : List Char) :
    (acc ++ a).getLast? = if a = [] then acc.getLast? else a.getLast? := by
  rcases List.eq_nil_or_concat a with h | ⟨z, w, h⟩
  · subst h; simp
  · rw [List.concat_eq_append] at h
    subst h
    have h1 : acc ++ (z ++ [w]) = (acc ++ z) ++ [w] := by simp
    rw [h1, List.getLast?_concat, if_neg (by simp), List.getLast?_concat]

theorem exists_concat_of_getLast?_cr {a : List Char}
    (h : a.getLast? = some '\r') : ∃ z, a = z ++ ['\r'] := by
  rcases List.eq_nil_or_concat a with h' | ⟨z, w, h'⟩
  · subst h'; cases h
  · rw [List.concat_eq_append] at h'
    subst h'
    rw [List.getLast?_concat] at h
    exact ⟨z, by rw [Option.some_inj.mp h]⟩

theorem ReadLineAux_crlf :
    ∀ (fuel : Nat) (p acc q : List Char), nlCount p < fuel →
    hasCRLF p = false → acc.getLast? ≠ some '\r' →
    ReadLineAux fuel acc (p ++ '\r' :: '\n' :: q) = (acc ++ p, true, q) := by
  intro fuel
  induction fuel with
  | zero => exact fun p acc q h => absurd h (Nat.not_lt_zero _)
  | succ n ih =>
    intro p acc q hc hcrlf hacc
    by_cases hmem : '\n' ∈ p
    · obtain ⟨a, b, rfl, hna⟩ := lf_split hmem
      have hstream : (a ++ '\n' :: b) ++ '\r' :: '\n' :: q
          = a ++ '\n' :: (b ++ '\r' :: '\n' :: q) := by simp
      have hrs : readStringLF ((a ++ '\n' :: b) ++ '\r' :: '\n' :: q)
          = (a ++ ['\n'], b ++ '\r' :: '\n' :: q, true) := by
        rw [hstream, readStringLF_append _ hna]
      have hlast : (acc ++ a).getLast? ≠ some '\r' := by
        rw [getLast?_append_cases]
        split
        · exact hacc
        · intro hla
          obtain ⟨z, hz⟩ := exists_concat_of_getLast?_cr hla
          rw [hz] at hcrlf
          have : (z ++ ['\r']) ++ '\n' :: b = z ++ '\r' :: '\n' :: b := by simp
          rw [this, hasCRLF_crlf] at hcrlf
          cases hcrlf
      have hsuffix : hasSuffixCRLF (acc ++ (a ++ ['\n'])) = false := by
        have h1 : acc ++ (a ++ ['\n']) = (acc ++ a) ++ ['\n'] := by simp
        rw [h1, hasSuffixCRLF_snoc_lf, decide_eq_false hlast]
      have hb : hasCRLF b = false := by
        have h1 : a ++ '\n' :: b = (a ++ ['\n']) ++ b := by simp
        rw [h1] at hcrlf
        exact hasCRLF_false_right hcrlf
      have hcb : nlCount b < n := by
        rw [nlCount_append] at hc
        simp [nlCount, nlCount_eq_zero hna] at hc
        omega
      have hlast' : (acc ++ (a ++ ['\n'])).getLast? ≠ some '\r' := by
        have h1 : acc ++ (a ++ ['\n']) = (acc ++ a) ++ ['\n'] := by simp
        rw [h1, List.getLast?_concat]
        simp
      rw [ReadLineAux, hrs]
      have hrec := ih b (acc ++ (a ++ ['\n'])) q hcb hb hlast'
      simp [hsuffix, hrec]
    · have h2 : '\n' ∉ p ++ ['\r'] := by
        intro hm
        rcases List.mem_append.mp hm with h | h
        · exact hmem h
        · simp at h
      have h1 : p ++ '\r' :: '\n' :: q = (p ++ ['\r']) ++ '\n' :: q := by simp
      have hrs : readStringLF (p ++ '\r' :: '\n' :: q)
          = ((p ++ ['\r']) ++ ['\n'], q, true) := by
        rw [h1, readStringLF_append _ h2]
      have h3 : acc ++ ((p ++ ['\r']) ++ ['\n']) = (acc ++ p) ++ ['\r', '\n'] := by
        simp
      have hsuffix : hasSuffixCRLF (acc ++ ((p ++ ['\r']) ++ ['\n'])) = true := by
        rw [h3, hasSuffixCRLF_pair]
        simp
      have htake : (acc ++ ((p ++ ['\r']) ++ ['\n'])).take
          ((acc ++ ((p ++ ['\r']) ++ ['\n'])).length - 2) = acc ++ p := by
        rw [h3, take_pair_left]
      rw [ReadLineAux, hrs]
      show (if (true = false)
            then (acc ++ ((p ++ ['\r']) ++ ['\n']), false, q)
            else if hasSuffixCRLF (acc ++ ((p ++ ['\r']) ++ ['\n']))
            then ((acc ++ ((p ++ ['\r']) ++ ['\n'])).take
                ((acc ++ ((p ++ ['\r']) ++ ['\n'])).length - 2), true, q)
            else ReadLineAux n (acc ++ ((p ++ ['\r']) ++ ['\n'])) q)
          = (acc ++ p, true, q)
      rw [if_neg (show ¬(true = false) by simp), if_pos hsuffix, htake]

theorem ReadLineAux_noCRLF :
    ∀ (fuel : Nat) (p acc : List Char), nlCount p < fuel →
    hasCRLF p = false → acc.getLast? ≠ some '\r' →
    ReadLineAux fuel acc p = (acc ++ p, false, []) := by
  intro fuel
  induction fuel with
  | zero => exact fun p acc h => absurd h (Nat.not_lt_zero _)
  | succ n ih =>
    intro p acc hc hcrlf hacc
    by_cases hmem : '\n' ∈ p
    · obtain ⟨a, b, rfl, hna⟩ := lf_split hmem
      have hrs : readStringLF (a ++ '\n' :: b) = (a ++ ['\n'], b, true) :=
        readStringLF_append _ hna
      have hlast : (acc ++ a).getLast? ≠ some '\r' := by
        rw [getLast?_append_cases]
        split
        · exact hacc
        · intro hla
          obtain ⟨z, hz⟩ := exists_concat_of_getLast?_cr hla
          rw [hz] at hcrlf
          have : (z ++ ['\r']) ++ '\n' :: b = z ++ '\r' :: '\n' :: b := by simp
          rw [this, hasCRLF_crlf] at hcrlf
          cases hcrlf
      have hsuffix : hasSuffixCRLF (acc ++ (a ++ ['\n'])) = false := by
        have h1 : acc ++ (a ++ ['\n']) = (acc ++ a) ++ ['\n'] := by simp
        rw [h1, hasSuffixCRLF_snoc_lf, decide_eq_false hlast]
      have hb : hasCRLF b = false := by
        have h1 : a ++ '\n' :: b = (a ++ ['\n']) ++ b := by simp
        rw [h1] at hcrlf
        exact hasCRLF_false_right hcrlf
      have hcb : nlCount b < n := by
        rw [nlCount_append] at hc
        simp [nlCount, nlCount_eq_zero hna] at hc
        omega
      have hlast' : (acc ++ (a ++ ['\n'])).getLast? ≠ some '\r' := by
        have h1 : acc ++ (a ++ ['\n']) = (acc ++ a) ++ ['\n'] := by simp
        rw [h1, List.getLast?_concat]
        simp
      rw [ReadLineAux, hrs]
      have hrec := ih b (acc ++ (a ++ ['\n'])) hcb hb hlast'
      simp [hsuffix, hrec]
    · have hrs : readStringLF p = (p, [], false) := readStringLF_noLF hmem
      rw [ReadLineAux, hrs]
      simp

theorem ReadLineAux_success :
    ∀ (fuel : Nat) (acc s line rest : List Char),
    ReadLineAux fuel acc s = (line, true, rest) →
    acc ++ s = line ++ '\r' :: '\n' :: rest := by
  intro fuel
  induction fuel with
  | zero =>
    intro acc s line rest h
    rw [ReadLineAux] at h
    cases h
  | succ n ih =>
    intro acc s line rest h
    rw [ReadLineAux] at h
    rcases hr : readStringLF s with ⟨chunk, rest0, found⟩
    rw [hr] at h
    have hre : chunk ++ rest0 = s := by
      have := readStringLF_recompose s
      rw [hr] at this
      exact this
    cases found with
    | false => simp at h
    | true =>
      have h' : (if (true = false)
            then (acc ++ chunk, false, rest0)
            else if hasSuffixCRLF (acc ++ chunk)
            then ((acc ++ chunk).take ((acc ++ chunk).length - 2), true, rest0)
            else ReadLineAux n (acc ++ chunk) rest0) = (line, true, rest) := h
      rw [if_neg (show ¬(true = false) by simp)] at h'
      by_cases hsx : hasSuffixCRLF (acc ++ chunk) = true
      · rw [if_pos hsx] at h'
        have hstrip := hasSuffixCRLF_strip hsx
        have h1 : (acc ++ chunk).take ((acc ++ chunk).length - 2) = line :=
          congrArg Prod.fst h'
        have h3 : rest0 = rest := congrArg (fun t => t.2.2) h'
        rw [← hre, ← List.append_assoc, hstrip, h1, h3]
        simp
      · rw [if_neg hsx] at h'
        have := ih (acc ++ chunk) rest0 line rest h'
        rw [← hre, ← List.append_assoc]
        exact this

theorem ReadLine_crlf {p : List Char} (q : List Char) (hp : hasCRLF p = false) :
    ReadLine (p ++ '\r' :: '\n' :: q) = (p, true, q) := by
  have hfuel : nlCount p < (p ++ '\r' :: '\n' :: q).length + 1 := by
    have h1 := nlCount_le_length p
    simp [List.length_append]
    omega
  have := ReadLineAux_crlf ((p ++ '\r' :: '\n' :: q).length + 1) p [] q hfuel hp
    (by simp)
  simpa [ReadLine] using this

theorem ReadLine_noCRLF {s : List Char} (hs : hasCRLF s = false) :
    ReadLine s = (s, false, []) := by
  have hfuel : nlCount s < s.length + 1 := by
    have := nlCount_le_length s
    omega
  have := ReadLineAux_noCRLF (s.length + 1) s [] hfuel hs (by simp)
  simpa [ReadLine] using this

theorem ReadLine_success {s line rest : List Char}
    (h : ReadLine s = (line, true, rest)) : s = line ++ '\r' :: '\n' :: rest := by
  have := ReadLineAux_success (s.length + 1) [] s line rest (by simpa [ReadLine] using h)
  simpa using this

theorem encodeLines_length_ge (hs : List (List Char)) :
    hs.length ≤ (encodeLines hs).length := by
  induction hs with
  | nil => simp [encodeLines]
  | cons h t ih =>
    simp only [encodeLines, List.length_append, List.length_cons]
    omega

theorem readHeaderLoopAux_blank :
    ∀ (fuel : Nat) (hs : List (List Char)) (q : List Char),
    hs.length < fuel → (∀ h ∈ hs, h ≠ [] ∧ hasCRLF h = false) →
    readHeaderLoopAux fuel (encodeLines hs ++ '\r' :: '\n' :: q) = (none, q) := by
  intro fuel
  induction fuel with
  | zero => exact fun hs q h => absurd h (Nat.not_lt_zero _)
  | succ n ih =>
    intro hs q hlen hhs
    cases hs with
    | nil =>
      have hrl : ReadLine (([] : List Char) ++ '\r' :: '\n' :: q) = ([], true, q) :=
        ReadLine_crlf q (by rfl)
      simp only [encodeLines, List.nil_append] at *
      rw [readHeaderLoopAux, hrl]
      simp
    | cons h t =>
      have hh := hhs h (List.mem_cons_self h t)
      have hstream : encodeLines (h :: t) ++ '\r' :: '\n' :: q
          = h ++ '\r' :: '\n' :: (encodeLines t ++ '\r' :: '\n' :: q) := by
        simp [encodeLines]
      have hrl : ReadLine (h ++ '\r' :: '\n' :: (encodeLines t ++ '\r' :: '\n' :: q))
          = (h, true, encodeLines t ++ '\r' :: '\n' :: q) :=
        ReadLine_crlf _ hh.2
      rw [hstream, readHeaderLoopAux, hrl]
      have hlen' : t.length < n := by
        simp only [List.length_cons] at hlen
        omega
      have hht : ∀ x ∈ t, x ≠ [] ∧ hasCRLF x = false :=
        fun x hx => hhs x (List.mem_cons_of_mem h hx)
      have hrec := ih t q hlen' hht
      simp [hh.1, hrec]

theorem readHeaderLoopAux_eof :
    ∀ (fuel : Nat) (hs : List (List Char)) (t : List Char),
    hs.length < fuel → (∀ h ∈ hs, h ≠ [] ∧ hasCRLF h = false) →
    hasCRLF t = false →
    readHeaderLoopAux fuel (encodeLines hs ++ t) = (some ParseError.eof, []) := by
  intro fuel
  induction fuel with
  | zero => exact fun hs t h => absurd h (Nat.not_lt_zero _)
  | succ n ih =>
    intro hs t hlen hhs ht
    cases hs with
    | nil =>
      have hrl : ReadLine t = (t, false, []) := ReadLine_noCRLF ht
      simp only [encodeLines, List.nil_append]
      rw [readHeaderLoopAux, hrl]
      simp
    | cons h hs' =>
      have hh := hhs h (List.mem_cons_self h hs')
      have hstream : encodeLines (h :: hs') ++ t
          = h ++ '\r' :: '\n' :: (encodeLines hs' ++ t) := by
        simp [encodeLines]
      have hrl : ReadLine (h ++ '\r' :: '\n' :: (encodeLines hs' ++ t))
          = (h, true, encodeLines hs' ++ t) :=
        ReadLine_crlf _ hh.2
      rw [hstream, readHeaderLoopAux, hrl]
      have hlen' : hs'.length < n := by
        simp only [List.length_cons] at hlen
        omega
      have hhs' : ∀ x ∈ hs', x ≠ [] ∧ hasCRLF x = false :=
        fun x hx => hhs x (List.mem_cons_of_mem h hx)
      have hrec := ih hs' t hlen' hhs' ht
      simp [hh.1, hrec]

theorem ReadRequest_eq_of_ReadLine {s line rest : List Char}
    (h : ReadLine s = (line, true, rest)) :
    ReadRequest s =
      match parseRequestLine line with
      | none => (none, some (ParseError.malformedStartLine line), rest)
      | some method =>
        if validMethod method = false then
          (none, some (ParseError.invalidMethod method), rest)
        else
          match readHeaderLoopAux (rest.length + 1) rest with
          | (some e, rest2) => (none, some e, rest2)
          | (none, rest2) => (some { Method := method }, none, rest2) := by
  rw [ReadRequest, h]
  rfl

theorem ReadRequest_malformed {p : List Char} (q : List Char)
    (hp : hasCRLF p = false) (hsplit : (splitN2Space p).length ≠ 2) :
    ReadRequest (p ++ '\r' :: '\n' :: q)
      = (none, some (ParseError.malformedStartLine p), q) := by
  have hparse : parseRequestLine p = none := by
    simp [parseRequestLine, hsplit]
  rw [ReadRequest_eq_of_ReadLine (ReadLine_crlf q hp), hparse]

theorem ReadRequest_invalid {p : List Char} (q m r : List Char)
    (hp : hasCRLF p = false) (hsplit : splitN2Space p = [m, r])
    (hm : m ≠ ['G', 'E', 'T']) :
    ReadRequest (p ++ '\r' :: '\n' :: q)
      = (none, some (ParseError.invalidMethod m), q) := by
  have hparse : parseRequestLine p = some m := by
    simp [parseRequestLine, hsplit]
  have hvm : validMethod m = false := by
    simp [validMethod, hm]
  rw [ReadRequest_eq_of_ReadLine (ReadLine_crlf q hp), hparse]
  simp [hvm]

theorem ReadRequest_success {p : List Char} (r : List Char)
    (hs : List (List Char)) (q : List Char)
    (hp : hasCRLF p = false) (hsplit : splitN2Space p = [['G', 'E', 'T'], r])
    (hhs : ∀ h ∈ hs, h ≠ [] ∧ hasCRLF h = false) :
    ReadRequest (p ++ '\r' :: '\n' :: (encodeLines hs ++ '\r' :: '\n' :: q))
      = (some { Method := ['G', 'E', 'T'] }, none, q) := by
  have hparse : parseRequestLine p = some ['G', 'E', 'T'] := by
    simp [parseRequestLine, hsplit]
  have hfuel : hs.length < (encodeLines hs ++ '\r' :: '\n' :: q).length + 1 := by
    have := encodeLines_length_ge hs
    simp only [List.length_append, List.length_cons]
    omega
  have hloop := readHeaderLoopAux_blank
    ((encodeLines hs ++ '\r' :: '\n' :: q).length + 1) hs q hfuel hhs
  rw [ReadRequest_eq_of_ReadLine (ReadLine_crlf _ hp), hparse]
  show (if validMethod ['G', 'E', 'T'] = false then
          (none, some (ParseError.invalidMethod ['G', 'E', 'T']),
            encodeLines hs ++ '\r' :: '\n' :: q)
        else
          match readHeaderLoopAux ((encodeLines hs ++ '\r' :: '\n' :: q).length + 1)
              (encodeLines hs ++ '\r' :: '\n' :: q) with
          | (some e, rest2) => (none, some e, rest2)
          | (none, rest2) => (some (Request.mk ['G', 'E', 'T']), none, rest2))
      = (some (Request.mk ['G', 'E', 'T']), none, q)
  rw [if_neg (by decide), hloop]

theorem ReadRequest_headerEof {p : List Char} (r : List Char)
    (hs : List (List Char)) (t : List Char)
    (hp : hasCRLF p = false) (hsplit : splitN2Space p = [['G', 'E', 'T'], r])
    (hhs : ∀ h ∈ hs, h ≠ [] ∧ hasCRLF h = false) (ht : hasCRLF t = false) :
    ReadRequest (p ++ '\r' :: '\n' :: (encodeLines hs ++ t))
      = (none, some ParseError.eof, []) := by
  have hparse : parseRequestLine p = some ['G', 'E', 'T'] := by
    simp [parseRequestLine, hsplit]
  have hfuel : hs.length < (encodeLines hs ++ t).length + 1 := by
    have := encodeLines_length_ge hs
    simp only [List.length_append]
    omega
  have hloop := readHeaderLoopAux_eof
    ((encodeLines hs ++ t).length + 1) hs t hfuel hhs ht
  rw [ReadRequest_eq_of_ReadLine (ReadLine_crlf _ hp), hparse]
  show (if validMethod ['G', 'E', 'T'] = false then
          (none, some (ParseError.invalidMethod ['G', 'E', 'T']),
            encodeLines hs ++ t)
        else
          match readHeaderLoopAux ((encodeLines hs ++ t).length + 1)
              (encodeLines hs ++ t) with
          | (some e, rest2) => (none, some e, rest2)
          | (none, rest2) => (some (Request.mk ['G', 'E', 'T']), none, rest2))
      = (none, some ParseError.eof, [])
  rw [if_neg (by decide), hloop]

/-- C1: for every input stream, whenever `ReadRequest` returns with no
error the returned request's `Method` field is exactly `"GET"`, and
whenever it returns an error it returns no request value at all. -/
theorem spec_C1 (s : List Char) :
    ((ReadRequest s).2.1 = none →
      ((ReadRequest s).1).map Request.Method = some ['G', 'E', 'T'])
    ∧ ((ReadRequest s).1 = none ∨ (ReadRequest s).2.1 = none) := by
  rcases hrl : ReadLine s with ⟨line, ok, rest⟩
  rw [ReadRequest, hrl]
  cases ok with
  | false => simp
  | true =>
    rcases hpr : parseRequestLine line with _ | m
    · simp [hpr]
    · by_cases hvm : validMethod m = false
      · simp [hpr, hvm]
      · have hvm' : validMethod m = true := by
          revert hvm
          cases validMethod m <;> simp
        have hm : m = ['G', 'E', 'T'] := by
          simpa [validMethod] using hvm'
        rcases hhl : readHeaderLoopAux (rest.length + 1) rest with ⟨oe, rest2⟩
        cases oe with
        | none => simp [hpr, hvm', hhl, hm, validMethod]
        | some e => simp [hpr, hvm', hhl]

/-- C1 witness: on the well-formed request of the repository's tests the
parse returns no error and the request's method is `"GET"`. -/
theorem spec_C1_witness :
    ((ReadRequest "GET /index.html HTTP/1.1\r\nHost: test\r\n\r\n".data).1).map
      Request.Method = some ['G', 'E', 'T'] :=
  (spec_C1 "GET /index.html HTTP/1.1\r\nHost: test\r\n\r\n".data).1 (by decide)

/-- C2 (amended): for every byte sequence whose first occurrence of CRLF
is at position `p.length` — i.e. the sequence is `p ++ "\r\n" ++ q` with
no CRLF inside `p` — `ReadLine` returns exactly the prefix `p` before
that CRLF (the terminator itself stripped), returns no error, and leaves
the stream cursor exactly after that CRLF. -/
theorem spec_C2 (p q : List Char) (hp : hasCRLF p = false) :
    ReadLine (p ++ '\r' :: '\n' :: q) = (p, true, q) :=
  ReadLine_crlf q hp

/-- C2 witness: a concrete instance of the amended claim. -/
theorem spec_C2_witness :
    hasCRLF ['a', 'b'] = false
    ∧ ReadLine (['a', 'b'] ++ '\r' :: '\n' :: ['c']) = (['a', 'b'], true, ['c']) :=
  ⟨by decide, spec_C2 ['a', 'b'] ['c'] (by decide)⟩

/-- C2 counterexample: on the stream `"a\r\r\n"`, whose first CRLF is at
position 2 (certified by `hasCRLF ['a','\r'] = false`), `ReadLine`
returns the prefix `"a\r"`, whose last character is `'\r'` — refuting
the claim's assertion that the returned prefix has no trailing `'\r'`
or `'\n'`. -/
theorem spec_C2_counterexample :
    hasCRLF ['a', '\r'] = false
    ∧ ReadLine (['a', '\r'] ++ '\r' :: '\n' :: []) = (['a', '\r'], true, [])
    ∧ (['a', '\r']).getLast? = some '\r' := by
  refine ⟨by decide, by decide, by decide⟩

/-- C3 (amended): if splitting the first line on its first space does not
yield exactly two parts (the line contains no space at all, so the split
yields a single field), `ReadRequest` fails with a malformed-start-line
error carrying the raw offending line; in particular the empty first
line (input `"\r\n"`) is such a line.  (The original claim's requirement
that the two parts also be non-empty is refuted by the counterexample:
the code checks only the field count.) -/
theorem spec_C3 (p q : List Char) (hp : hasCRLF p = false)
    (hsplit : (splitN2Space p).length ≠ 2) :
    ReadRequest (p ++ '\r' :: '\n' :: q)
      = (none, some (ParseError.malformedStartLine p), q) :=
  ReadRequest_malformed q hp hsplit

/-- C3 witness: the input `"\r\n"` (empty first line) yields the
malformed-start-line error carrying the empty raw line. -/
theorem spec_C3_witness :
    (splitN2Space []).length ≠ 2
    ∧ ReadRequest ('\r' :: '\n' :: [])
      = (none, some (ParseError.malformedStartLine []), []) :=
  ⟨by decide, spec_C3 [] [] (by decide) (by decide)⟩

/-- C3 counterexample: the start line `"GET "` splits on its first space
into the two parts `["GET", ""]` — not two non-empty parts, since the
second is empty — yet `ReadRequest` on `"GET \r\n\r\n"` succeeds with no
error at all instead of failing with a malformed-start-line error. -/
theorem spec_C3_counterexample :
    splitN2Space ['G', 'E', 'T', ' '] = [['G', 'E', 'T'], []]
    ∧ ReadRequest ['G', 'E', 'T', ' ', '\r', '\n', '\r', '\n']
      = (some { Method := ['G', 'E', 'T'] }, none, []) := by
  refine ⟨by decide, by decide⟩

/-- C4: for every first line that splits on its first space into two
parts, if the first token is any string other than `"GET"`,
`ReadRequest` fails with an invalid-method error carrying that token. -/
theorem spec_C4 (p q m r : List Char) (hp : hasCRLF p = false)
    (hsplit : splitN2Space p = [m, r]) (hm : m ≠ ['G', 'E', 'T']) :
    ReadRequest (p ++ '\r' :: '\n' :: q)
      = (none, some (ParseError.invalidMethod m), q) :=
  ReadRequest_invalid q m r hp hsplit hm

/-- C4 witness: the spec's example `"GETT /index.html HTTP/1.1\r\n..."`
yields the invalid-method error with offending token `"GETT"`. -/
theorem spec_C4_witness :
    ReadRequest ("GETT /index.html HTTP/1.1".data ++ '\r' :: '\n' ::
        "Host: test\r\n\r\n".data)
      = (none, some (ParseError.invalidMethod "GETT".data),
          "Host: test\r\n\r\n".data) :=
  spec_C4 "GETT /index.html HTTP/1.1".data "Host: test\r\n\r\n".data
    "GETT".data "/index.html HTTP/1.1".data (by decide) (by decide) (by decide)

/-- C5: `ReadLine` treats exactly `"\r\n"` as the only terminator: every
successful return decomposes the stream as the returned line followed by
`"\r\n"` followed by the returned remainder (so success never happens at
a bare `'\n'`), and a stream containing no CRLF never yields a complete
line — its bytes accumulate until end of stream and surface with the
stream error. -/
theorem spec_C5 (s : List Char) :
    (∀ line rest : List Char, ReadLine s = (line, true, rest) →
      s = line ++ '\r' :: '\n' :: rest)
    ∧ (hasCRLF s = false → ReadLine s = (s, false, [])) :=
  ⟨fun _ _ h => ReadLine_success h, fun hs => ReadLine_noCRLF hs⟩

/-- C5 witness: a stream with a bare `'\n'` and no CRLF never completes a
line; the bytes accumulate until end of stream. -/
theorem spec_C5_witness :
    hasCRLF ['a', '\n', 'b'] = false
    ∧ ReadLine ['a', '\n', 'b'] = (['a', '\n', 'b'], false, []) :=
  ⟨by decide, (spec_C5 ['a', '\n', 'b']).2 (by decide)⟩

/-- C6: for every stream that ends before a CRLF terminator is found,
`ReadLine` returns the partially accumulated text together with the
stream error: the accumulated text equals exactly the unterminated
trailing bytes of the stream (empty for a clean close between lines). -/
theorem spec_C6 (t : List Char) (ht : hasCRLF t = false) :
    ReadLine t = (t, false, []) :=
  ReadLine_noCRLF ht

/-- C6 witness: unterminated trailing bytes come back exactly with the
error, and the empty stream gives an empty accumulation (clean close). -/
theorem spec_C6_witness :
    ReadLine "GET /index.html HTTP".data = ("GET /index.html HTTP".data, false, [])
    ∧ ReadLine ([] : List Char) = ([], false, []) :=
  ⟨spec_C6 "GET /index.html HTTP".data (by decide), spec_C6 [] (by decide)⟩

/-- C7: after a valid start line, header lines are read and discarded
until the first zero-length line and their content can never fail the
parse: for every list of arbitrary non-empty CRLF-terminated header
lines followed by a blank line the parse succeeds, while a stream whose
header block is cut off before the blank line (trailing bytes `t` with
no CRLF, e.g. a disconnect mid-headers) surfaces the read error
unchanged, never a successful parse. -/
theorem spec_C7 (p r t : List Char) (hs : List (List Char)) (q : List Char)
    (hp : hasCRLF p = false) (hsplit : splitN2Space p = [['G', 'E', 'T'], r])
    (hhs : ∀ h ∈ hs, h ≠ [] ∧ hasCRLF h = false) (ht : hasCRLF t = false) :
    ReadRequest (p ++ '\r' :: '\n' :: (encodeLines hs ++ '\r' :: '\n' :: q))
      = (some { Method := ['G', 'E', 'T'] }, none, q)
    ∧ ReadRequest (p ++ '\r' :: '\n' :: (encodeLines hs ++ t))
      = (none, some ParseError.eof, []) :=
  ⟨ReadRequest_success r hs q hp hsplit hhs,
   ReadRequest_headerEof r hs t hp hsplit hhs ht⟩

/-- C7 witness: two arbitrary header lines then a blank line parse fine;
the same headers cut off mid-line surface the end-of-stream error. -/
theorem spec_C7_witness :
    ReadRequest ("GET /index.html HTTP/1.1".data ++ '\r' :: '\n' ::
        (encodeLines ["Host: test".data, "X: a b c".data] ++ '\r' :: '\n' :: []))
      = (some { Method := ['G', 'E', 'T'] }, none, [])
    ∧ ReadRequest ("GET /index.html HTTP/1.1".data ++ '\r' :: '\n' ::
        (encodeLines ["Host: test".data, "X: a b c".data] ++ "Host: tr".data))
      = (none, some ParseError.eof, []) :=
  spec_C7 "GET /index.html HTTP/1.1".data "/index.html HTTP/1.1".data
    "Host: tr".data ["Host: test".data, "X: a b c".data] []
    (by decide) (by decide) (by decide) (by decide)

/-- C8: each `ReadRequest` call consumes exactly one full request's
bytes: on a stream holding two concatenated valid requests the first
call returns the `"GET"` request and leaves the cursor exactly at the
second request, whose parse from there also returns the `"GET"` request
and consumes the stream; and a call on the now-empty stream (one valid
request followed by clean end-of-stream) returns the end-of-stream
signal, not a malformed-input error. -/
theorem spec_C8 (p1 r1 p2 r2 : List Char) (hs1 hs2 : List (List Char))
    (hp1 : hasCRLF p1 = false) (hsp1 : splitN2Space p1 = [['G', 'E', 'T'], r1])
    (hh1 : ∀ h ∈ hs1, h ≠ [] ∧ hasCRLF h = false)
    (hp2 : hasCRLF p2 = false) (hsp2 : splitN2Space p2 = [['G', 'E', 'T'], r2])
    (hh2 : ∀ h ∈ hs2, h ≠ [] ∧ hasCRLF h = false) :
    ReadRequest (p1 ++ '\r' :: '\n' :: (encodeLines hs1 ++ '\r' :: '\n' ::
        (p2 ++ '\r' :: '\n' :: (encodeLines hs2 ++ '\r' :: '\n' :: []))))
      = (some { Method := ['G', 'E', 'T'] }, none,
          p2 ++ '\r' :: '\n' :: (encodeLines hs2 ++ '\r' :: '\n' :: []))
    ∧ ReadRequest (p2 ++ '\r' :: '\n' :: (encodeLines hs2 ++ '\r' :: '\n' :: []))
      = (some { Method := ['G', 'E', 'T'] }, none, [])
    ∧ ReadRequest [] = (none, some ParseError.eof, []) :=
  ⟨ReadRequest_success r1 hs1 _ hp1 hsp1 hh1,
   ReadRequest_success r2 hs2 [] hp2 hsp2 hh2,
   rfl⟩

/-- C8 witness: the repository test's two back-to-back `GET` requests. -/
theorem spec_C8_witness :
    ReadRequest ("GET /index.html HTTP/1.1".data ++ '\r' :: '\n' ::
        (encodeLines ["Host: test".data] ++ '\r' :: '\n' ::
          ("GET /index.html HTTP/1.1".data ++ '\r' :: '\n' ::
            (encodeLines ["Host: test".data] ++ '\r' :: '\n' :: []))))
      = (some { Method := ['G', 'E', 'T'] }, none,
          "GET /index.html HTTP/1.1".data ++ '\r' :: '\n' ::
            (encodeLines ["Host: test".data] ++ '\r' :: '\n' :: []))
    ∧ ReadRequest ("GET /index.html HTTP/1.1".data ++ '\r' :: '\n' ::
        (encodeLines ["Host: test".data] ++ '\r' :: '\n' :: []))
      = (some { Method := ['G', 'E', 'T'] }, none, [])
    ∧ ReadRequest [] = (none, some ParseError.eof, []) :=
  spec_C8 "GET /index.html HTTP/1.1".data "/index.html HTTP/1.1".data
    "GET /index.html HTTP/1.1".data "/index.html HTTP/1.1".data
    ["Host: test".data] ["Host: test".data]
    (by decide) (by decide) (by decide) (by decide) (by decide) (by decide)

/-- C9: `Write` on a response prepared by `HandleOK` emits exactly the
bytes `"HTTP/1.1 200 OK\r\n"`, and on a response prepared by
`HandleBadRequest` exactly `"HTTP/1.1 405 Method Not Allowed\r\n"`; in
both cases the status line is the entirety of the emitted bytes (no
header lines, no body). -/
theorem spec_C9 (res : Response) :
    Response.Write (Response.HandleOK res) = "HTTP/1.1 200 OK\r\n".data
    ∧ Response.Write (Response.HandleBadRequest res)
      = "HTTP/1.1 405 Method Not Allowed\r\n".data := by
  refine ⟨?_, ?_⟩ <;>
    (simp only [Response.Write, Response.HandleOK, Response.HandleBadRequest,
      Response.init]; decide)

/-- C10: for every response carrying the protocol string and a status
code other than the two mapped codes 200 and 405, the status-text lookup
yields the missing-key default (the empty string) and `Write` still
emits a full status line `"HTTP/1.1 <code> \r\n"`, with a trailing space
before the CRLF where the reason phrase would be. -/
theorem spec_C10 (res : Response) (hproto : res.Proto = responseProto)
    (h200 : res.StatusCode ≠ 200) (h405 : res.StatusCode ≠ 405) :
    statusText res.StatusCode = []
    ∧ Response.Write res
      = responseProto ++ ' ' :: (intToChars res.StatusCode ++ ' ' :: ['\r', '\n']) := by
  have hst : statusText res.StatusCode = [] := by
    rw [statusText, if_neg (by simpa [statusOK] using h200),
      if_neg (by simpa [statusMethodNotAllowed] using h405)]
  refine ⟨hst, ?_⟩
  rw [Response.Write, hproto, hst]
  rfl

/-- C10 witness: an unmapped code 404 produces `"HTTP/1.1 404 \r\n"`. -/
theorem spec_C10_witness :
    statusText (404 : Int) = []
    ∧ Response.Write { StatusCode := 404, Proto := responseProto, FilePath := [] }
      = "HTTP/1.1 404 \r\n".data := by
  have h := spec_C10 { StatusCode := 404, Proto := responseProto, FilePath := [] }
    rfl (by decide) (by decide)
  exact ⟨h.1, h.2.trans (by decide)⟩
